import Mathlib

/-!
Verification of the document-analysis pipeline of the Smart Legal Assistant
prototype (`src/smart_legal_assistant.py`).

The Python source is shallowly embedded:
* strings are `String` / `List Char`; Python `float` confidence scores are `ℚ`;
* the external model capabilities (summarizer, NLI classifier, PDF extractor,
  UTF-8 decoder) are parameters of the embedded functions; a call that may
  raise is modelled with `Except` / `Option`;
* capability invocations are recorded explicitly (`SummCall` lists, call
  counters) so that call-pattern properties can be stated.
-/

/-- ASCII whitespace in the sense of Python's `str.split()` / `\s` / `strip()`
(space, tab, newline, carriage return, vertical tab, form feed). -/
def pyIsSpace (c : Char) : Bool :=
  c = ' ' || c = '\t' || c = '\n' || c = '\r' || c = '\x0b' || c = '\x0c'

/-- Split a character list at every whitespace character, keeping the (possibly
empty) fragments between them.  Auxiliary for `pyWords`. -/
def splitWsAux (cur : List Char) : List Char → List (List Char)
  | [] => [cur]
  | c :: rest =>
    if pyIsSpace c then cur :: splitWsAux [] rest
    else splitWsAux (cur ++ [c]) rest

/-- Python `text.split()` (no separator): split on runs of whitespace and drop
empty fragments, so no empty strings and no leading/trailing artifacts. -/
def pyWords (s : String) : List String :=
  ((splitWsAux [] s.toList).filter (fun w => w ≠ [])).map String.mk

/-- `chunk_text`'s grouping of the word list: `words[i:i+700]` for
`i in range(0, len(words), 700)` (the source's `max_words` is only ever its
default `700`). -/
def chunkWords : List String → List (List String)
  | [] => []
  | w :: ws => ((w :: ws).take 700) :: chunkWords ((w :: ws).drop 700)
  termination_by l => l.length
  decreasing_by simp; omega

/-- `chunk_text(text, max_words=700)`: split into words, regroup into blocks of
up to 700 words, rejoin each block with single spaces (`" ".join`). -/
def chunk_text (text : String) : List String :=
  (chunkWords (pyWords text)).map (fun c => String.intercalate " " c)

/-- One invocation of the summarization capability, with the keyword arguments
the source passes (`max_length`, `min_length`, `truncation`). -/
structure SummCall where
  input : String
  maxLength : ℕ
  minLength : ℕ
  truncation : Bool
deriving DecidableEq, Repr

/-- `summarize_text(text, max_length=200)`.  The summarization capability is a
parameter `S` returning the top candidate's `summary_text`; the returned pair
is (final summary, the list of capability calls in the order they are issued). -/
def summarize_text (S : SummCall → String) (text : String) (maxLength : ℕ := 200) :
    String × List SummCall :=
  if (pyWords text).length < 800 then
    ((S ⟨text, maxLength, 30, true⟩), [⟨text, maxLength, 30, true⟩])
  else
    let chunks := chunk_text text
    let calls := chunks.map (fun c => (⟨c, 120, 30, true⟩ : SummCall))
    let partials := calls.map S
    let combined := String.intercalate " " partials
    ((S ⟨combined, maxLength, 50, true⟩), calls ++ [⟨combined, maxLength, 50, true⟩])

/-- State of the scan implementing `re.sub(r"\n{2,}", "\n\n", ·)`:
`n` counts how many consecutive newlines of the current run have already been
emitted; once two are emitted, further newlines of the run are dropped. -/
def collapseAux (n : ℕ) : List Char → List Char
  | [] => []
  | c :: rest =>
    if c = '\n' then
      if 2 ≤ n then collapseAux n rest
      else c :: collapseAux (n + 1) rest
    else c :: collapseAux 0 rest

/-- `re.sub(r"\n{2,}", "\n\n", text)`: every maximal run of two or more
newlines is replaced by exactly two newlines. -/
def collapseNewlines (l : List Char) : List Char := collapseAux 0 l

/-- The blank-line normalization of `extract_clauses`, at string level. -/
def normalizeBlank (s : String) : String := String.mk (collapseNewlines s.toList)

/-- Scanner state for `re.split(r"\n\s*\n", ·)`:
* `piece`: inside ordinary text;
* `pending buf`: a `'\n'` was seen, followed so far only by non-newline
  whitespace (`buf` holds that newline and the whitespace) — no match yet;
* `matched after`: a second `'\n'` was seen, so a separator match is in
  progress; the greedy `\s*` extends the match up to the last newline of the
  whitespace run, and `after` holds the whitespace seen since that newline
  (which belongs to the next piece). -/
inductive BlankMode where
  | piece : BlankMode
  | pending (buf : List Char) : BlankMode
  | matched (after : List Char) : BlankMode
deriving DecidableEq, Repr

/-- One-pass scanner equivalent to `re.split(r"\n\s*\n", ·)` (leftmost,
non-overlapping, greedy matches). -/
def splitBlankAux (cur : List Char) (m : BlankMode) : List Char → List (List Char)
  | [] =>
    match m with
    | .piece => [cur]
    | .pending buf => [cur ++ buf]
    | .matched after => [cur, after]
  | c :: rest =>
    match m with
    | .piece =>
      if c = '\n' then splitBlankAux cur (.pending [c]) rest
      else splitBlankAux (cur ++ [c]) .piece rest
    | .pending buf =>
      if c = '\n' then splitBlankAux cur (.matched []) rest
      else if pyIsSpace c then splitBlankAux cur (.pending (buf ++ [c])) rest
      else splitBlankAux (cur ++ buf ++ [c]) .piece rest
    | .matched after =>
      if c = '\n' then splitBlankAux cur (.matched []) rest
      else if pyIsSpace c then splitBlankAux cur (.matched (after ++ [c])) rest
      else cur :: splitBlankAux (after ++ [c]) .piece rest

/-- `re.split(r"\n\s*\n", l)` on a character list. -/
def reSplitBlank (l : List Char) : List (List Char) := splitBlankAux [] .piece l

/-- Python `str.strip()` on a character list (ASCII whitespace). -/
def pyStrip (l : List Char) : List Char :=
  ((l.dropWhile pyIsSpace).reverse.dropWhile pyIsSpace).reverse

/-- The paragraph list `paras` of `extract_clauses`:
`[p.strip() for p in re.split(r"\n\s*\n", re.sub(r"\n{2,}", "\n\n", text)) if p.strip()]`. -/
def clauseParas (text : String) : List (List Char) :=
  ((reSplitBlank (collapseNewlines text.toList)).map pyStrip).filter (fun p => p ≠ [])

/-- The accumulation loop of `extract_clauses`: append paragraphs longer than
40 characters; after each paragraph, stop as soon as the clause count has
reached `maxClauses`. -/
def clauseLoop (maxClauses : ℕ) (clauses : List (List Char)) :
    List (List Char) → List (List Char)
  | [] => clauses
  | p :: rest =>
    let cl := if 40 < p.length then clauses ++ [p] else clauses
    if maxClauses ≤ cl.length then cl else clauseLoop maxClauses cl rest

/-- `extract_clauses(text, max_clauses=20)`. -/
def extract_clauses (text : String) (maxClauses : ℕ := 20) : List String :=
  (clauseLoop maxClauses [] (clauseParas text)).map String.mk

/-- Does `l` start with `n` (element-wise equality)? -/
def leadsWith : List Char → List Char → Bool
  | [], _ => true
  | _ :: _, [] => false
  | a :: as, b :: bs => a = b && leadsWith as bs

/-- Does `l` contain `n` as a contiguous sub-list?  Implements Python's
`needle in haystack` on strings. -/
def hasSub (n : List Char) : List Char → Bool
  | [] => leadsWith n []
  | c :: rest => leadsWith n (c :: rest) || hasSub n rest

/-- Python `str.upper()` (ASCII case mapping suffices for model labels). -/
def pyUpper (s : String) : String := String.mk (s.toList.map Char.toUpper)

/-- Python `str.lower()`. -/
def pyLower (s : String) : String := String.mk (s.toList.map Char.toLower)

/-- `"ENTAIL" in label.upper()`. -/
def containsENTAIL (label : String) : Bool :=
  hasSub "ENTAIL".toList (pyUpper label).toList

/-- Python `s.endswith(suffix)`. -/
def pyEndsWith (suffix s : String) : Bool :=
  leadsWith suffix.toList.reverse s.toList.reverse

/-- The fixed risk-hypothesis list of `flag_risks_with_nli`, in source order. -/
def hypotheses : List String :=
  [ "This clause allows termination without notice.",
    "This clause removes or limits liability.",
    "This clause allows automatic renewal.",
    "This clause allows unilateral amendment." ]

/-- The top result of one NLI classification: `{label, score}` (the score, a
Python float, is modelled as a rational). -/
structure NliResult where
  label : String
  score : ℚ
deriving DecidableEq

/-- The finding string `f"{h} → {clause[:200]}..."`. -/
def mkFinding (h clause : String) : String :=
  h ++ " → " ++ String.mk (clause.toList.take 200) ++ "..."

/-- The findings contributed by one `(clause, hypothesis)` pair.  The NLI
capability `nli` returns the top result or fails; the whole pair is wrapped in
`try/except` in the source, so a failure contributes nothing. -/
def pairFindings (nli : String → String → Except Unit NliResult)
    (clause h : String) : List String :=
  match nli clause h with
  | .ok top =>
    if containsENTAIL top.label ∧ (0.6 : ℚ) < top.score then [mkFinding h clause]
    else []
  | .error _ => []

/-- The `flagged` list before deduplication: the clause-by-hypothesis scan in
document order, the four hypotheses in fixed order inside each clause. -/
def rawFindings (nli : String → String → Except Unit NliResult)
    (clauses : List String) : List String :=
  (clauses.map (fun clause => (hypotheses.map (pairFindings nli clause)).flatten)).flatten

/-- `list(dict.fromkeys(·))`: drop duplicates, keeping first occurrences.
`seen` holds the values already emitted. -/
def dedupKeepFirst (seen : List String) : List String → List String
  | [] => []
  | x :: xs =>
    if x ∈ seen then dedupKeepFirst seen xs
    else x :: dedupKeepFirst (x :: seen) xs

/-- `flag_risks_with_nli(clauses)`, with the NLI capability as a parameter. -/
def flag_risks_with_nli (nli : String → String → Except Unit NliResult)
    (clauses : List String) : List String :=
  dedupKeepFirst [] (rawFindings nli clauses)

/-- The `(premise, hypothesis)` pairs handed to the NLI capability by the scan,
in invocation order (one invocation per pair, also when the call fails). -/
def nliCallPairs (clauses : List String) : List (String × String) :=
  (clauses.map (fun clause => hypotheses.map (fun h => (clause, h)))).flatten

/-- An uploaded artifact: optional filename plus raw byte content
(bytes as naturals below 256). -/
structure UploadFile where
  filename : Option String
  contents : List ℕ

/-- `(upload.filename or "").lower()`. -/
def uploadName (u : UploadFile) : String := pyLower (u.filename.getD "")

/-- Latin-1 ("single-byte fallback") decoding: total on arbitrary bytes, byte
`b` becomes the character with code point `b`. -/
def latin1Decode (bs : List ℕ) : String := String.mk (bs.map Char.ofNat)

/-- Outcome of `extract_text_from_upload`: the extracted text (or the
propagated PDF-extraction error) together with whether the temporary PDF file
still exists when control returns to the caller. -/
structure ExtractOutcome where
  result : Except String String
  tmpLeft : Bool

/-- The `try/finally` of the PDF branch: the body runs against the temporary
file; whatever the body's outcome, the `finally` clause unlinks the file
before control leaves, and a body error propagates. -/
def tryFinallyUnlink (body : Except String String) : ExtractOutcome :=
  match body with
  | .ok s => { result := .ok s, tmpLeft := false }
  | .error e => { result := .error e, tmpLeft := false }

/-- `extract_text_from_upload(upload)`.  `pdfExtract` models
`pdfminer.high_level.extract_text` applied to the temporary file holding the
upload's bytes; `utf8` models `bytes.decode("utf-8")` (`none` = raise). -/
def extract_text_from_upload (pdfExtract : List ℕ → Except String String)
    (utf8 : List ℕ → Option String) (u : UploadFile) : ExtractOutcome :=
  if pyEndsWith ".pdf" (uploadName u) then
    tryFinallyUnlink (pdfExtract u.contents)
  else
    match utf8 u.contents with
    | some s => { result := .ok s, tmpLeft := false }
    | none => { result := .ok (latin1Decode u.contents), tmpLeft := false }

/-- The external capabilities consumed by the pipeline. -/
structure Env where
  pdfExtract : List ℕ → Except String String
  utf8 : List ℕ → Option String
  summarizer : SummCall → String
  nli : String → String → Except Unit NliResult

/-- The response dictionary `{"summary", "clauses", "flagged_risks"}`. -/
structure AnalyzeResponse where
  summary : String
  clauses : List String
  flagged_risks : List String
deriving DecidableEq

/-- Capability invocations made while serving one request. -/
structure Trace where
  extractionCalls : ℕ
  summarizationCalls : List SummCall
  nliCalls : ℕ
deriving DecidableEq

/-- Body of `/analyze` once a document text is in hand: segment clauses,
summarize, flag risks, assemble the response. -/
def runPipeline (env : Env) (docText : String) : AnalyzeResponse × (List SummCall × ℕ) :=
  let clauses := extract_clauses docText 20
  let summary := summarize_text env.summarizer docText 200
  let risks := flag_risks_with_nli env.nli clauses
  (⟨summary.1, clauses, risks⟩, (summary.2, (nliCallPairs clauses).length))

/-- Python truthiness of the optional form field `text`
(`None` and `""` are falsy). -/
def pyTruthy : Option String → Bool
  | none => false
  | some s => !s.isEmpty

/-- The `/analyze` handler `analyze_document(text, file)`.  Returns the
response (or a propagated extraction error) plus the capability-call trace. -/
def analyze_document (env : Env) (text : Option String) (file : Option UploadFile) :
    Except String AnalyzeResponse × Trace :=
  if !pyTruthy text && file.isNone then
    (.ok ⟨"", [], []⟩, ⟨0, [], 0⟩)
  else
    match file with
    | some f =>
      match (extract_text_from_upload env.pdfExtract env.utf8 f).result with
      | .error e => (.error e, ⟨1, [], 0⟩)
      | .ok docText =>
        let r := runPipeline env docText
        (.ok r.1, ⟨1, r.2.1, r.2.2⟩)
    | none =>
      let r := runPipeline env (text.getD "")
      (.ok r.1, ⟨0, r.2.1, r.2.2⟩)

/-- A fixture for closed instances: 800 one-character words. -/
def longText : String := String.mk ((List.replicate 800 ['w', ' ']).flatten)

/-- A fixture for closed instances: a single 50-character paragraph. -/
def oneLongPara : String := String.mk (List.replicate 50 'a')

/-- The scan behind the blank-run normalization absorbs a repeated pass:
collapsing a second time changes nothing. -/
theorem collapseAux_idem (l : List Char) : ∀ n, collapseAux n (collapseAux n l) = collapseAux n l := by
  induction l with
  | nil => intro n; simp [collapseAux]
  | cons c rest ih =>
    intro n
    by_cases hc : c = '\n'
    · by_cases hn : 2 ≤ n
      · simp [collapseAux, hc, hn, ih]
      · simp [collapseAux, hc, hn, ih]
    · simp [collapseAux, hc, ih]

/-- C9: the blank-line normalization `re.sub(r"\n{2,}", "\n\n", ·)` used by
`extract_clauses` is idempotent — applying it twice yields the same string,
and hence the same paragraph list, as applying it once. -/
theorem normalizeBlank_idempotent (s : String) :
    normalizeBlank (normalizeBlank s) = normalizeBlank s ∧
    clauseParas (normalizeBlank s) = clauseParas s := by
  constructor
  · exact congrArg String.mk (collapseAux_idem s.toList 0)
  · unfold clauseParas normalizeBlank collapseNewlines
    rw [show (String.mk (collapseAux 0 s.toList)).toList = collapseAux 0 s.toList from rfl]
    rw [collapseAux_idem s.toList 0]

/-- C5: a request with neither a text payload nor a file short-circuits to the
empty result and invokes no capability (extraction count, summarization call
list and NLI call count are all zero). -/
theorem analyze_document_empty (env : Env) :
    analyze_document env none none =
      (.ok ⟨"", [], []⟩, ⟨0, [], 0⟩) := rfl

/-- C10: because the emptiness check uses Python truthiness, an empty-string
text payload with no file behaves exactly like no payload at all: the empty
result is returned and no capability is invoked. -/
theorem analyze_document_empty_string (env : Env) :
    analyze_document env (some "") none = (.ok ⟨"", [], []⟩, ⟨0, [], 0⟩) ∧
    analyze_document env (some "") none = analyze_document env none none := ⟨rfl, rfl⟩

/-- C7: for a non-PDF filename, extraction never fails: the bytes are decoded
as UTF-8, any decode failure falls back to latin-1, which is total — it
decodes every byte of arbitrary content — so a string is always returned. -/
theorem extract_text_nonpdf_total (pdfExtract : List ℕ → Except String String)
    (utf8 : List ℕ → Option String) (u : UploadFile)
    (h : pyEndsWith ".pdf" (uploadName u) = false) :
    (∀ s, utf8 u.contents = some s →
      (extract_text_from_upload pdfExtract utf8 u).result = .ok s) ∧
    (utf8 u.contents = none →
      (extract_text_from_upload pdfExtract utf8 u).result = .ok (latin1Decode u.contents)) ∧
    (latin1Decode u.contents).toList.length = u.contents.length ∧
    ∃ s, (extract_text_from_upload pdfExtract utf8 u).result = .ok s := by
  refine ⟨?_, ?_, ?_, ?_⟩
  · intro s hs; simp [extract_text_from_upload, h, hs]
  · intro hs; simp [extract_text_from_upload, h, hs]
  · simp [latin1Decode]
  · cases hu : utf8 u.contents with
    | some s => exact ⟨s, by simp [extract_text_from_upload, h, hu]⟩
    | none => exact ⟨latin1Decode u.contents, by simp [extract_text_from_upload, h, hu]⟩

/-- Closed instance of `extract_text_nonpdf_total`: a `.txt` upload whose bytes
are not valid UTF-8 (the decoder rejects them) still decodes via latin-1. -/
theorem extract_text_nonpdf_total_witness :
    (extract_text_from_upload (fun _ => .error "pdf") (fun _ => none)
      ⟨some "a.txt", [0, 255]⟩).result = .ok (latin1Decode [0, 255]) :=
  (extract_text_nonpdf_total (fun _ => .error "pdf") (fun _ => none)
    ⟨some "a.txt", [0, 255]⟩ (by decide)).2.1 rfl

/-- C8: for a PDF filename, the temporary file is removed on every exit path —
extraction success and extraction failure alike — and an extraction failure
propagates to the caller as an error instead of being swallowed. -/
theorem extract_text_pdf_cleanup (pdfExtract : List ℕ → Except String String)
    (utf8 : List ℕ → Option String) (u : UploadFile)
    (h : pyEndsWith ".pdf" (uploadName u) = true) :
    (extract_text_from_upload pdfExtract utf8 u).tmpLeft = false ∧
    (∀ e, pdfExtract u.contents = .error e →
      (extract_text_from_upload pdfExtract utf8 u).result = .error e) ∧
    (∀ s, pdfExtract u.contents = .ok s →
      (extract_text_from_upload pdfExtract utf8 u).result = .ok s) := by
  refine ⟨?_, ?_, ?_⟩
  · cases hr : pdfExtract u.contents with
    | ok s => simp [extract_text_from_upload, h, tryFinallyUnlink, hr]
    | error e => simp [extract_text_from_upload, h, tryFinallyUnlink, hr]
  · intro e he; simp [extract_text_from_upload, h, tryFinallyUnlink, he]
  · intro s hs; simp [extract_text_from_upload, h, tryFinallyUnlink, hs]

/-- Closed instance of `extract_text_pdf_cleanup`: a failing PDF extraction
leaves no temporary file behind and surfaces its error. -/
theorem extract_text_pdf_cleanup_witness :
    (extract_text_from_upload (fun _ => .error "broken pdf") (fun _ => none)
      ⟨some "Doc.PDF", [1, 2]⟩).tmpLeft = false ∧
    (extract_text_from_upload (fun _ => .error "broken pdf") (fun _ => none)
      ⟨some "Doc.PDF", [1, 2]⟩).result = .error "broken pdf" := by
  have h := extract_text_pdf_cleanup (fun _ => .error "broken pdf") (fun _ => none)
    ⟨some "Doc.PDF", [1, 2]⟩ (by decide)
  exact ⟨h.1, h.2.1 "broken pdf" rfl⟩

/-- The word chunks reassemble to the original word list: chunking is
non-overlapping and in document order. -/
theorem chunkWords_flatten (ws : List String) : (chunkWords ws).flatten = ws := by
  induction ws using chunkWords.induct with
  | case1 => simp [chunkWords]
  | case2 w ws ih =>
    rw [chunkWords, List.flatten_cons, ih]
    exact List.take_append_drop 700 (w :: ws)

/-- Every chunk holds at most 700 words. -/
theorem chunkWords_le (ws : List String) : ∀ c ∈ chunkWords ws, c.length ≤ 700 := by
  induction ws using chunkWords.induct with
  | case1 => simp [chunkWords]
  | case2 w ws ih =>
    rw [chunkWords]
    intro c hc
    rcases List.mem_cons.mp hc with h | h
    · subst h; simp [List.length_take]
    · exact ih c h

/-- The number of chunks is `ceil(word_count / 700)`. -/
theorem chunkWords_length (ws : List String) :
    (chunkWords ws).length = (ws.length + 699) / 700 := by
  induction ws using chunkWords.induct with
  | case1 => simp [chunkWords]
  | case2 w ws ih =>
    rw [chunkWords]
    simp only [List.length_cons, ih, List.length_drop]
    omega

/-- C1: for word count < 800, `summarize_text` issues exactly one summarization
call with `{max_length, min_length=30, truncation=true}`; for word count ≥ 800
it issues one call per chunk (`ceil(word_count/700)` many, chunks being
non-overlapping word-bounded groups of at most 700 words in document order)
with `{max_length=120, min_length=30, truncation=true}`, joins the partial
summaries with single spaces in chunk order, and issues exactly one final
reduce call on that concatenation with `{max_length, min_length=50,
truncation=true}`. -/
theorem summarize_text_calls (S : SummCall → String) (text : String) (maxLength : ℕ) :
    ((pyWords text).length < 800 →
      summarize_text S text maxLength =
        (S ⟨text, maxLength, 30, true⟩, [⟨text, maxLength, 30, true⟩])) ∧
    (800 ≤ (pyWords text).length →
      (summarize_text S text maxLength).2 =
        (chunk_text text).map (fun c => (⟨c, 120, 30, true⟩ : SummCall)) ++
          [⟨String.intercalate " " ((chunk_text text).map (fun c => S ⟨c, 120, 30, true⟩)),
            maxLength, 50, true⟩] ∧
      (chunk_text text).length = ((pyWords text).length + 699) / 700 ∧
      chunk_text text = (chunkWords (pyWords text)).map (String.intercalate " ") ∧
      (chunkWords (pyWords text)).flatten = pyWords text ∧
      (∀ c ∈ chunkWords (pyWords text), c.length ≤ 700) ∧
      (summarize_text S text maxLength).1 =
        S ⟨String.intercalate " " ((chunk_text text).map (fun c => S ⟨c, 120, 30, true⟩)),
           maxLength, 50, true⟩) := by
  constructor
  · intro h
    simp [summarize_text, h]
  · intro h
    have hn : ¬ (pyWords text).length < 800 := by omega
    refine ⟨?_, ?_, ?_, chunkWords_flatten _, chunkWords_le _, ?_⟩
    · simp [summarize_text, hn, List.map_map, Function.comp_def]
    · simp [chunk_text, chunkWords_length]
    · rfl
    · simp [summarize_text, hn, List.map_map, Function.comp_def]

set_option maxRecDepth 40000 in
/-- Closed instance of `summarize_text_calls`: a two-word text gets a single
direct call; the 800-word fixture has `ceil(800/700) = 2` chunks. -/
theorem summarize_text_calls_witness :
    summarize_text (fun _ => "s") "one two" 200 =
      ("s", [⟨"one two", 200, 30, true⟩]) ∧
    (chunk_text longText).length = ((pyWords longText).length + 699) / 700 := by
  constructor
  · exact (summarize_text_calls (fun _ => "s") "one two" 200).1 (by decide)
  · exact ((summarize_text_calls (fun _ => "s") longText 200).2 (by decide)).2.1

/-- If the clause accumulator is strictly below the cap when the loop starts,
it never exceeds the cap: the cap test runs after every paragraph. -/
theorem clauseLoop_length_le (maxC : ℕ) (paras : List (List Char)) :
    ∀ clauses : List (List Char), clauses.length < maxC →
      (clauseLoop maxC clauses paras).length ≤ maxC := by
  induction paras with
  | nil => intro clauses h; simpa [clauseLoop] using Nat.le_of_lt h
  | cons p rest ih =>
    intro clauses h
    by_cases hp : 40 < p.length
    · by_cases hb : maxC ≤ (clauses ++ [p]).length
      · simp only [clauseLoop, hp, if_true, hb]
        simp at hb ⊢
        omega
      · simp only [clauseLoop, hp, if_true, hb, if_false]
        refine ih _ ?_
        simp at hb ⊢
        omega
    · have hb : ¬ maxC ≤ clauses.length := by omega
      simp only [clauseLoop, hp, if_false, hb]
      exact ih clauses h

/-- The loop extends the accumulator by an ordered selection of paragraphs,
all longer than 40 characters. -/
theorem clauseLoop_sublist (maxC : ℕ) (paras : List (List Char)) :
    ∀ clauses, ∃ s, clauseLoop maxC clauses paras = clauses ++ s ∧
      s.Sublist paras ∧ ∀ p ∈ s, 40 < p.length := by
  induction paras with
  | nil => intro clauses; exact ⟨[], by simp [clauseLoop], List.nil_sublist _, by simp⟩
  | cons p rest ih =>
    intro clauses
    by_cases hp : 40 < p.length
    · by_cases hb : maxC ≤ (clauses ++ [p]).length
      · refine ⟨[p], ?_, ?_, ?_⟩
        · simp only [clauseLoop, hp, if_true, hb]
        · exact (List.nil_sublist rest).cons₂ p
        · simpa using hp
      · obtain ⟨s, hs1, hs2, hs3⟩ := ih (clauses ++ [p])
        refine ⟨p :: s, ?_, hs2.cons₂ p, ?_⟩
        · simp only [clauseLoop, hp, if_true, hb, if_false, hs1, List.append_assoc,
            List.singleton_append]
        · intro q hq
          rcases List.mem_cons.mp hq with h | h
          · subst h; exact hp
          · exact hs3 q h
    · have hb : ¬ maxC ≤ clauses.length → clauseLoop maxC clauses (p :: rest) =
        clauseLoop maxC clauses rest := by
        intro hb'; simp only [clauseLoop, hp, if_false, hb', ite_false]
      by_cases hb' : maxC ≤ clauses.length
      · refine ⟨[], by simp only [clauseLoop, hp, if_false, hb', if_true, List.append_nil],
          List.nil_sublist _, by simp⟩
      · obtain ⟨s, hs1, hs2, hs3⟩ := ih clauses
        exact ⟨s, by rw [hb hb', hs1], hs2.cons p, hs3⟩

/-- A document none of whose paragraphs clears the 40-character floor yields no
clauses, whatever the cap. -/
theorem clauseLoop_nil_of_short (maxC : ℕ) (paras : List (List Char))
    (h : ∀ p ∈ paras, ¬ 40 < p.length) : clauseLoop maxC [] paras = [] := by
  induction paras with
  | nil => simp [clauseLoop]
  | cons p rest ih =>
    have hp := h p (by simp)
    by_cases hb : maxC ≤ (0 : ℕ)
    · simp only [clauseLoop, hp, if_false, List.length_nil, hb, if_true]
    · simp only [clauseLoop, hp, if_false, List.length_nil, hb, ite_false]
      exact ih (fun q hq => h q (List.mem_cons_of_mem _ hq))

/-- Every kept paragraph is a whitespace-trimmed, non-empty piece of the
blank-line split of the normalized input. -/
theorem clauseParas_mem (text : String) (c : List Char) (hc : c ∈ clauseParas text) :
    c ≠ [] ∧ ∃ q ∈ reSplitBlank (collapseNewlines text.toList), c = pyStrip q := by
  unfold clauseParas at hc
  rw [List.mem_filter] at hc
  obtain ⟨hmem, hne⟩ := hc
  rw [List.mem_map] at hmem
  obtain ⟨q, hq, rfl⟩ := hmem
  exact ⟨by simpa using hne, q, hq, rfl⟩

/-- C2 counterexample: with `max_clauses = 0`, `extract_clauses` still returns
one entry for a 50-character paragraph, because the cap test only runs after a
paragraph has been appended — so "at most max_clauses entries for every
max_clauses" fails at `max_clauses = 0`. -/
theorem extract_clauses_cap_violation_at_zero :
    ¬ (extract_clauses oneLongPara 0).length ≤ 0 := by decide

/-- C2 (amended: the cap bound holds for every `max_clauses ≥ 1`; at
`max_clauses = 0` one entry can escape): the result never has more than
`max_clauses` entries when `max_clauses ≥ 1`; each entry is a whitespace-trimmed
paragraph of the normalized input longer than 40 characters; entries preserve
document order; and a document with no paragraph above 40 characters yields
the empty list (for every cap). -/
theorem extract_clauses_spec (text : String) (maxC : ℕ) :
    (1 ≤ maxC → (extract_clauses text maxC).length ≤ maxC) ∧
    (∃ s, List.Sublist s (clauseParas text) ∧
      extract_clauses text maxC = s.map String.mk ∧
      ∀ p ∈ s, 40 < p.length ∧ p ≠ [] ∧
        ∃ q ∈ reSplitBlank (collapseNewlines text.toList), p = pyStrip q) ∧
    ((∀ p ∈ clauseParas text, ¬ 40 < p.length) → extract_clauses text maxC = []) := by
  refine ⟨?_, ?_, ?_⟩
  · intro hmax
    have := clauseLoop_length_le maxC (clauseParas text) [] (by simpa using hmax)
    simpa [extract_clauses] using this
  · obtain ⟨s, hs1, hs2, hs3⟩ := clauseLoop_sublist maxC (clauseParas text) []
    refine ⟨s, hs2, by simp [extract_clauses, hs1], ?_⟩
    intro p hp
    have hmem : p ∈ clauseParas text := hs2.mem hp
    obtain ⟨hne, hq⟩ := clauseParas_mem text p hmem
    exact ⟨hs3 p hp, hne, hq⟩
  · intro h
    simp [extract_clauses, clauseLoop_nil_of_short maxC (clauseParas text) h]

/-- Closed instance of `extract_clauses_spec`: a two-paragraph contract yields
at most 20 clauses, and a document of short paragraphs yields none. -/
theorem extract_clauses_spec_witness :
    (extract_clauses "Term: This Agreement may be terminated immediately without notice.\n\nPayment: Invoices are due in 30 days." 20).length ≤ 20 ∧
    extract_clauses "short one\n\nshort two" 20 = [] := by
  constructor
  · exact (extract_clauses_spec "Term: This Agreement may be terminated immediately without notice.\n\nPayment: Invoices are due in 30 days." 20).1 (by decide)
  · exact (extract_clauses_spec "short one\n\nshort two" 20).2.2 (by decide)

/-- Membership in the deduplicated list: present in the input and not already
emitted. -/
theorem mem_dedupKeepFirst (l : List String) : ∀ seen x,
    x ∈ dedupKeepFirst seen l ↔ x ∈ l ∧ x ∉ seen := by
  induction l with
  | nil => intro seen x; simp [dedupKeepFirst]
  | cons a l ih =>
    intro seen x
    by_cases ha : a ∈ seen
    · rw [dedupKeepFirst, if_pos ha, ih]
      constructor
      · rintro ⟨h1, h2⟩; exact ⟨List.mem_cons_of_mem _ h1, h2⟩
      · rintro ⟨h1, h2⟩
        rcases List.mem_cons.mp h1 with rfl | h1
        · exact absurd ha h2
        · exact ⟨h1, h2⟩
    · rw [dedupKeepFirst, if_neg ha]
      constructor
      · intro hx
        rcases List.mem_cons.mp hx with rfl | hx
        · exact ⟨List.mem_cons_self _ _, ha⟩
        · obtain ⟨h1, h2⟩ := (ih _ _).mp hx
          exact ⟨List.mem_cons_of_mem _ h1, fun hs => h2 (List.mem_cons_of_mem _ hs)⟩
      · rintro ⟨h1, h2⟩
        rcases List.mem_cons.mp h1 with rfl | h1
        · exact List.mem_cons_self _ _
        · by_cases hxa : x = a
          · subst hxa; exact List.mem_cons_self _ _
          · refine List.mem_cons_of_mem _ ((ih _ _).mpr ⟨h1, fun hs => ?_⟩)
            rcases List.mem_cons.mp hs with h | h
            · exact hxa h
            · exact h2 h

/-- Deduplication leaves no duplicates. -/
theorem nodup_dedupKeepFirst (l : List String) : ∀ seen, (dedupKeepFirst seen l).Nodup := by
  induction l with
  | nil => intro seen; simp [dedupKeepFirst]
  | cons a l ih =>
    intro seen
    by_cases ha : a ∈ seen
    · rw [dedupKeepFirst, if_pos ha]; exact ih seen
    · rw [dedupKeepFirst, if_neg ha]
      refine List.nodup_cons.mpr ⟨fun hmem => ?_, ih _⟩
      exact ((mem_dedupKeepFirst l _ a).mp hmem).2 (List.mem_cons_self _ _)

/-- Deduplication keeps a subsequence of the scan: surviving entries stay in
scan order. -/
theorem dedupKeepFirst_sublist (l : List String) : ∀ seen,
    List.Sublist (dedupKeepFirst seen l) l := by
  induction l with
  | nil => intro seen; simp [dedupKeepFirst]
  | cons a l ih =>
    intro seen
    by_cases ha : a ∈ seen
    · rw [dedupKeepFirst, if_pos ha]; exact (ih seen).cons a
    · rw [dedupKeepFirst, if_neg ha]; exact (ih _).cons₂ a

/-- Surviving entries are ordered by the position of their first occurrence in
the scanned list. -/
theorem pairwise_dedupKeepFirst (l : List String) : ∀ seen,
    List.Pairwise (fun a b => l.indexOf a < l.indexOf b) (dedupKeepFirst seen l) := by
  induction l with
  | nil => intro seen; simp [dedupKeepFirst]
  | cons x l ih =>
    intro seen
    by_cases hx : x ∈ seen
    · rw [dedupKeepFirst, if_pos hx]
      refine List.Pairwise.imp_of_mem ?_ (ih seen)
      intro a b ha hb hab
      have hna : a ≠ x := fun h => ((mem_dedupKeepFirst l seen a).mp ha).2 (h ▸ hx)
      have hnb : b ≠ x := fun h => ((mem_dedupKeepFirst l seen b).mp hb).2 (h ▸ hx)
      rw [List.indexOf_cons_ne l (fun h => hna h.symm),
        List.indexOf_cons_ne l (fun h => hnb h.symm)]
      omega
    · rw [dedupKeepFirst, if_neg hx]
      refine List.pairwise_cons.mpr ⟨?_, ?_⟩
      · intro b hb
        have hnb : b ≠ x := fun h =>
          ((mem_dedupKeepFirst l (x :: seen) b).mp hb).2 (h ▸ List.mem_cons_self x seen)
        rw [List.indexOf_cons_self, List.indexOf_cons_ne l (fun h => hnb h.symm)]
        omega
      · refine List.Pairwise.imp_of_mem ?_ (ih (x :: seen))
        intro a b ha hb hab
        have hna : a ≠ x := fun h =>
          ((mem_dedupKeepFirst l (x :: seen) a).mp ha).2 (h ▸ List.mem_cons_self x seen)
        have hnb : b ≠ x := fun h =>
          ((mem_dedupKeepFirst l (x :: seen) b).mp hb).2 (h ▸ List.mem_cons_self x seen)
        rw [List.indexOf_cons_ne l (fun h => hna h.symm),
          List.indexOf_cons_ne l (fun h => hnb h.symm)]
        omega

/-- C3: the flagged list contains no duplicate finding strings (deduplication
by exact string equality), the surviving findings form a subsequence of the
clause-by-hypothesis scan (clauses in document order, the four hypotheses in
fixed order inside each clause), they cover exactly the findings produced by
the scan, and they are ordered by first occurrence in the scan. -/
theorem flag_risks_dedup_order (nli : String → String → Except Unit NliResult)
    (clauses : List String) :
    (flag_risks_with_nli nli clauses).Nodup ∧
    List.Sublist (flag_risks_with_nli nli clauses) (rawFindings nli clauses) ∧
    (∀ s, s ∈ flag_risks_with_nli nli clauses ↔ s ∈ rawFindings nli clauses) ∧
    List.Pairwise
      (fun a b => (rawFindings nli clauses).indexOf a < (rawFindings nli clauses).indexOf b)
      (flag_risks_with_nli nli clauses) :=
  ⟨nodup_dedupKeepFirst _ _, dedupKeepFirst_sublist _ _,
   fun s => by simp [flag_risks_with_nli, mem_dedupKeepFirst],
   pairwise_dedupKeepFirst _ _⟩

/-- `leadsWith` recognizes exactly the lists extending its first argument. -/
theorem leadsWith_iff (n : List Char) : ∀ l, leadsWith n l = true ↔ ∃ t, l = n ++ t := by
  induction n with
  | nil => intro l; simp [leadsWith]
  | cons a as ih =>
    intro l
    cases l with
    | nil => simp [leadsWith]
    | cons b bs =>
      simp only [leadsWith, Bool.and_eq_true, decide_eq_true_eq, ih]
      constructor
      · rintro ⟨rfl, t, rfl⟩; exact ⟨t, rfl⟩
      · rintro ⟨t, ht⟩
        rw [List.cons_append] at ht
        injection ht with h1 h2
        exact ⟨h1.symm, t, h2⟩

/-- `hasSub` recognizes exactly contiguous containment. -/
theorem hasSub_iff (n l : List Char) : hasSub n l = true ↔ ∃ p t, l = p ++ n ++ t := by
  induction l with
  | nil =>
    rw [hasSub, leadsWith_iff]
    constructor
    · rintro ⟨t, ht⟩
      obtain ⟨hn, ht'⟩ := List.append_eq_nil.mp ht.symm
      exact ⟨[], [], by simp [hn, ht']⟩
    · rintro ⟨p, t, h⟩
      obtain ⟨hpn, ht⟩ := List.append_eq_nil.mp h.symm
      obtain ⟨hp, hn⟩ := List.append_eq_nil.mp hpn
      exact ⟨[], by simp [hn]⟩
  | cons c rest ih =>
    rw [hasSub, Bool.or_eq_true, leadsWith_iff, ih]
    constructor
    · rintro (⟨t, ht⟩ | ⟨p, t, rfl⟩)
      · exact ⟨[], t, by simpa using ht⟩
      · exact ⟨c :: p, t, by simp⟩
    · rintro ⟨p, t, h⟩
      cases p with
      | nil => exact Or.inl ⟨t, by simpa using h⟩
      | cons x xs =>
        rw [List.cons_append] at h
        injection h with h1 h2
        exact Or.inr ⟨xs, t, h2⟩

/-- C4: given the top classifier result `{label, score}` for a
`(clause, hypothesis)` pair, a finding is recorded exactly when the uppercased
label contains the substring `"ENTAIL"` and the score strictly exceeds 0.6;
the recorded finding is `"{hypothesis} → {first 200 characters of clause}..."`
(the excerpt holds at most 200 characters and `"..."` is always appended). -/
theorem pairFindings_spec (nli : String → String → Except Unit NliResult)
    (clause h label : String) (score : ℚ)
    (hres : nli clause h = .ok ⟨label, score⟩) :
    (pairFindings nli clause h = [mkFinding h clause] ↔
      (∃ p t, (pyUpper label).toList = p ++ "ENTAIL".toList ++ t) ∧ (0.6 : ℚ) < score) ∧
    (pairFindings nli clause h = [mkFinding h clause] ∨ pairFindings nli clause h = []) ∧
    mkFinding h clause = h ++ " → " ++ String.mk (clause.toList.take 200) ++ "..." ∧
    (clause.toList.take 200).length ≤ 200 := by
  refine ⟨?_, ?_, rfl, by simp⟩
  · simp only [pairFindings, hres]
    by_cases hc : containsENTAIL label ∧ (0.6 : ℚ) < score
    · rw [if_pos hc]
      have hent : ∃ p t, (pyUpper label).toList = p ++ "ENTAIL".toList ++ t := by
        have h1 := hc.1
        unfold containsENTAIL at h1
        exact (hasSub_iff _ _).mp h1
      exact ⟨fun _ => ⟨hent, hc.2⟩, fun _ => rfl⟩
    · rw [if_neg hc]
      constructor
      · intro habs; exact absurd habs (by simp [mkFinding])
      · rintro ⟨hent, hscore⟩
        have h1 : containsENTAIL label = true := by
          unfold containsENTAIL
          exact (hasSub_iff _ _).mpr hent
        exact absurd ⟨h1, hscore⟩ hc
  · simp only [pairFindings, hres]
    by_cases hc : containsENTAIL label ∧ (0.6 : ℚ) < score
    · exact Or.inl (by rw [if_pos hc])
    · exact Or.inr (by rw [if_neg hc])

/-- Closed instance of `pairFindings_spec`: an `"ENTAILMENT"` label with score
0.7 produces the formatted finding. -/
theorem pairFindings_spec_witness :
    pairFindings (fun _ _ => .ok ⟨"ENTAILMENT", 7 / 10⟩) "some clause" "hyp" =
      [mkFinding "hyp" "some clause"] :=
  ((pairFindings_spec (fun _ _ => .ok ⟨"ENTAILMENT", 7 / 10⟩) "some clause" "hyp"
      "ENTAILMENT" (7 / 10) rfl).1).mpr
    ⟨⟨[], "MENT".toList, rfl⟩, by norm_num⟩

/-- A failing pair and a pair with a different failure payload contribute the
same (empty) findings; successful pairs contribute according to their result. -/
theorem pairFindings_congr (c1 c2 : String → String → Except Unit NliResult)
    (hagree : ∀ cl h, (c1 cl h).toOption = (c2 cl h).toOption) :
    ∀ cl h, pairFindings c1 cl h = pairFindings c2 cl h := by
  intro cl h
  have hopt := hagree cl h
  cases h1 : c1 cl h with
  | ok r =>
    cases h2 : c2 cl h with
    | ok r2 =>
      have hr : r = r2 := by
        rw [h1, h2] at hopt
        simpa [Except.toOption] using hopt
      rw [pairFindings, pairFindings, h1, h2, hr]
    | error e =>
      rw [h1, h2] at hopt
      simp [Except.toOption] at hopt
  | error e =>
    cases h2 : c2 cl h with
    | ok r2 =>
      rw [h1, h2] at hopt
      simp [Except.toOption] at hopt
    | error e2 => rw [pairFindings, pairFindings, h1, h2]

/-- C6: the risk flagger never surfaces a classification failure.  Its result
only depends on the successful classifications — any mix of failures, whatever
their payloads, is skipped silently and the scan continues — and if every pair
fails the result is the empty finding list. -/
theorem flag_risks_error_silent (clauses : List String)
    (c1 c2 : String → String → Except Unit NliResult)
    (hagree : ∀ cl h, (c1 cl h).toOption = (c2 cl h).toOption) :
    flag_risks_with_nli c1 clauses = flag_risks_with_nli c2 clauses ∧
    ((∀ cl h, (c1 cl h).toOption = none) → flag_risks_with_nli c1 clauses = []) := by
  constructor
  · have hp : pairFindings c1 = pairFindings c2 :=
      funext fun cl => funext fun h => pairFindings_congr c1 c2 hagree cl h
    rw [flag_risks_with_nli, flag_risks_with_nli, rawFindings, rawFindings, hp]
  · intro hall
    have hp0 : ∀ cl h, pairFindings c1 cl h = [] := by
      intro cl h
      have h0 := hall cl h
      cases h1 : c1 cl h with
      | ok r => rw [h1] at h0; simp [Except.toOption] at h0
      | error e => rw [pairFindings, h1]
    have hraw : rawFindings c1 clauses = [] := by
      rw [rawFindings, List.flatten_eq_nil_iff]
      intro x hx
      obtain ⟨cl, _, rfl⟩ := List.mem_map.mp hx
      rw [List.flatten_eq_nil_iff]
      intro y hy
      obtain ⟨h, _, rfl⟩ := List.mem_map.mp hy
      exact hp0 cl h
    rw [flag_risks_with_nli, hraw]
    rfl

/-- Closed instance of `flag_risks_error_silent`: an NLI capability that raises
on every pair still yields an (empty) finding list. -/
theorem flag_risks_error_silent_witness :
    flag_risks_with_nli (fun _ _ => .error ()) ["Clause one text.", "Clause two text."] = [] :=
  (flag_risks_error_silent ["Clause one text.", "Clause two text."]
    (fun _ _ => .error ()) (fun _ _ => .error ()) (fun _ _ => rfl)).2 (fun _ _ => rfl)
